import Mathlib

/-!
Verification development for the Client_API_VN synchronization engine.

The definitions below are a shallow embedding of the following parts of the
source code:

* `PID` — the discrete feedback controller used by `Observations._store_search`
  (imported in the source from `export_vn.regulator`);
* `scanLoopF`, `windowObs`, `obsStoreSearch` — the backward windowed scan of
  `Observations._store_search` and the dispatching `Observations.store`
  (`download_vn.py`);
* `classifyDiff`, `batches`, `updateLoop` — the differential sync of
  `Observations.update` (`download_vn.py`);
* `getTableLoop` — the chunked paginator of `DownloadTable.get_table`
  (`DownloadFromVN.py`);
* `storeOneSimple`, `store_1_observation` — the upsert of
  `StorePostgresql._store_simple` and `StorePostgresql._store_1_observation`
  (`store_postgresql.py`).

Dates are modelled as integers (days); machine floats of the controller are
modelled as rationals; Python exceptions are modelled with `Except`.
-/

namespace ClientAPIVN

instance {ε α : Type} [DecidableEq ε] [DecidableEq α] : DecidableEq (Except ε α)
  | Except.ok a, Except.ok b =>
    if h : a = b then isTrue (by rw [h]) else isFalse (by simp [h])
  | Except.ok _, Except.error _ => isFalse (by simp)
  | Except.error _, Except.ok _ => isFalse (by simp)
  | Except.error e, Except.error f =>
    if h : e = f then isTrue (by rw [h]) else isFalse (by simp [h])

/-- Minimum of two rationals, written as the `if` the clamping code performs. -/
def rmin (a b : ℚ) : ℚ := if a ≤ b then a else b

/-- Maximum of two rationals, written as the `if` the clamping code performs. -/
def rmax (a b : ℚ) : ℚ := if a ≤ b then b else a

/-- Clamp `x` into the interval `[lo, hi]`. -/
def clamp (x lo hi : ℚ) : ℚ := rmax lo (rmin x hi)

/-- The Python `int()` conversion on a rational: truncation toward zero. -/
def pyInt (q : ℚ) : ℤ := if 0 ≤ q then ⌊q⌋ else ⌈q⌉

/-- Modelled from the spec: the `PID` controller state of
`export_vn.regulator.PID`, whose module is not part of the sources at hand
(only its import and call sites in `download_vn.py` are).  Field names follow
the ControllerState of the spec data model: gains `kp`, `ki`, `kd`, the target
`setpoint`, the output clamping bounds `output_min` and `output_max`, and the
accumulators `integral_accum` and `prior_error`, zero-initialized on
construction. -/
structure PID where
  kp : ℚ
  ki : ℚ
  kd : ℚ
  setpoint : ℚ
  output_min : ℚ
  output_max : ℚ
  integral_accum : ℚ := 0
  prior_error : ℚ := 0

/-- Modelled from the spec: one controller call `next_width(measured_count)`
of `export_vn.regulator.PID` (module missing from the sources at hand).
Follows the spec algorithm literally:
`error = setpoint - measured_count`; `integral_accum += error`;
`derivative = error - prior_error`;
`raw_output = kp*error + ki*integral_accum + kd*derivative`;
`width = clamp(raw_output, output_min, output_max)`; `prior_error = error`.
Returns the clamped width together with the updated controller state. -/
def PID.step (p : PID) (measured : ℚ) : ℚ × PID :=
  let error := p.setpoint - measured
  let integral := p.integral_accum + error
  let derivative := error - p.prior_error
  let raw := p.kp * error + p.ki * integral + p.kd * derivative
  (clamp raw p.output_min p.output_max,
   { p with integral_accum := integral, prior_error := error })

/-- Outputs of successive controller calls on a sequence of measured counts. -/
def PID.run (p : PID) : List ℚ → List ℚ
  | [] => []
  | m :: ms => (p.step m).1 :: ((p.step m).2.run ms)

/-- Python exceptions that the embedded code can raise: `TypeError` from the
membership test `x in None`, and the `NotImplementedException` of
`download_vn.py`. -/
inductive PyErr
  | typeError
  | notImplementedException
deriving DecidableEq, Repr

/-- One row of the `territorial_units` table read in
`Observations.__init__`, with the fields used by `_store_search`. -/
structure TUnit where
  short_name : String
  id_country : String
deriving DecidableEq, Repr

/-- Environment of one `_store_search` scan: the territorial-unit list from
the database, and the number of observations the backend store reports for a
given iteration number `seq` and territorial unit (the value
`self._backend.store(...)` returns for that fetch). -/
structure ScanEnv where
  t_units : List TUnit
  counts : ℕ → String → ℤ

/-- The Python membership test `x in l` where `l` may be `None`:
`x in None` raises a `TypeError`. -/
def pyIn (x : String) (l : Option (List String)) : Except PyErr Bool :=
  match l with
  | none => Except.error PyErr.typeError
  | some ys => Except.ok (ys.contains x)

/-- The inner loop of one `_store_search` window (lines 473-515 of
`download_vn.py`): starting from `nb_obs = 0`, for each territorial unit
whose `short_name` passes the membership test against
`territorial_unit_ids`, add the count returned by the backend store for this
fetch.  The log calls of the source are side-effect free and elided. -/
def windowObs (env : ScanEnv) (tuids : Option (List String)) (seq : ℕ) :
    Except PyErr ℤ :=
  env.t_units.foldlM
    (fun nb tu => do
      let b ← pyIn tu.short_name tuids
      pure (if b then nb + env.counts seq tu.short_name else nb))
    0

/-- The backward window sweep of `Observations._store_search`
(lines 440-517 of `download_vn.py`), for one taxo group, with an explicit
fuel argument.  At every loop head the source maintains
`start_date = end_date` (it initializes `start_date = end_date` and ends each
iteration with `end_date = start_date`), so a single date argument `endD`
suffices.  One iteration: if `start_date > min_date`, set
`start = end - delta_days` days, accumulate `nb_obs` over the territorial
units, then `seq += 1`, `end_date = start_date` and
`delta_days = int(pid(nb_obs))`.  The result is `none` when the fuel runs
out, `some (Except.error e)` when an exception is raised, and
`some (Except.ok ws)` when the loop finishes, where `ws` is the list of
`(start_date, end_date)` windows in processing order. -/
def scanLoopF (env : ScanEnv) (tuids : Option (List String)) (minD : ℤ) :
    ℕ → PID → ℤ → ℤ → ℕ → Option (Except PyErr (List (ℤ × ℤ)))
  | 0, _, _, _, _ => none
  | fuel + 1, p, endD, delta, seq =>
    if minD < endD then
      match windowObs env tuids seq with
      | Except.error e => some (Except.error e)
      | Except.ok nb =>
        let start := endD - delta
        let w := p.step (nb : ℚ)
        match scanLoopF env tuids minD fuel w.2 start (pyInt w.1) (seq + 1) with
        | none => none
        | some (Except.error e) => some (Except.error e)
        | some (Except.ok ws) => some (Except.ok ((start, endD) :: ws))
    else some (Except.ok [])

/-- The search branch of `Observations.store` (lines 587-591 of
`download_vn.py`): for each taxo group of the resolved list, run
`_store_search` with the given `territorial_unit_ids` and a fresh controller.
`store` is called with defaults `method="search"` and
`territorial_unit_ids=None`, which dispatches here with `tuids = none`.
An exception raised by any scan propagates and aborts the remaining taxo
groups. -/
def obsStoreSearch (env : ScanEnv) (tuids : Option (List String))
    (minD endD : ℤ) (fuel : ℕ) (p0 : PID) (delta0 : ℤ) :
    List ℤ → Option (Except PyErr Unit)
  | [] => some (Except.ok ())
  | _taxo :: rest =>
    match scanLoopF env tuids minD fuel p0 endD delta0 1 with
    | none => none
    | some (Except.error e) => some (Except.error e)
    | some (Except.ok _) => obsStoreSearch env tuids minD endD fuel p0 delta0 rest

/-- `isChain e ws` states that `ws` is a backward chain of windows hanging
from `e`: the first window ends exactly at `e`, every window has
`start < end`, and each subsequent window ends where the current one starts
(`end_{i+1} = start_i`). -/
def isChain : ℤ → List (ℤ × ℤ) → Prop
  | _, [] => True
  | e, w :: rest => w.2 = e ∧ w.1 < w.2 ∧ isChain w.1 rest

/-- The lower end of a backward chain of windows hanging from `e`: the start
of the last window, or `e` itself for the empty chain. -/
def chainBottom : ℤ → List (ℤ × ℤ) → ℤ
  | e, [] => e
  | _, w :: rest => chainBottom w.1 rest

/-- The `modification_type` field of one diff-feed entry; values other than
`"updated"` and `"deleted"` are represented by `other`. -/
inductive ModKind
  | updated
  | deleted
  | other (s : String)
deriving DecidableEq, Repr

/-- One entry of the diff feed returned by `api_diff` in
`Observations.update`. -/
structure DiffItem where
  id_sighting : ℤ
  modification_type : ModKind
deriving DecidableEq, Repr

/-- Whether a diff-feed kind is neither `updated` nor `deleted`. -/
def ModKind.isOther : ModKind → Bool
  | ModKind.other _ => true
  | _ => false

/-- The classification loop of `Observations.update` (lines 652-669 of
`download_vn.py`): each item with `modification_type == "updated"` appends
its `id_sighting` to the `updated` list, `"deleted"` appends to the
`deleted` list, and any other value raises `NotImplementedException`,
aborting the loop. -/
def classifyDiff : List DiffItem → Except PyErr (List ℤ × List ℤ)
  | [] => Except.ok ([], [])
  | it :: rest =>
    match it.modification_type with
    | ModKind.updated =>
      (classifyDiff rest).map (fun p => (it.id_sighting :: p.1, p.2))
    | ModKind.deleted =>
      (classifyDiff rest).map (fun p => (p.1, it.id_sighting :: p.2))
    | ModKind.other _ => Except.error PyErr.notImplementedException

/-- The batching of the `updated` list in `Observations.update`
(lines 686-707 of `download_vn.py`): batch `i` is the Python slice
`updated[i*L : (i+1)*L]` for `i` in `range((len(updated) + L - 1) // L)`,
where `L` is `tuning_max_list_length`. -/
def batches (l : List ℤ) (L : ℕ) : List (List ℤ) :=
  (List.range ((l.length + L - 1) / L)).map (fun i => (l.drop (i * L)).take L)

/-- Observable actions `Observations.update` performs against the backend
and the remote API, in program order: the checkpoint write
`increment_log(site, taxo, now)`, the diff request `api_diff(taxo, since)`,
one `api_list` fetch plus backend store per batch of updated ids, and one
`delete_obs` call for the deleted ids. -/
inductive Action
  | checkpointWrite (taxo : ℤ) (t : ℤ)
  | diffFetch (taxo : ℤ) (since : ℤ)
  | storeBatch (taxo : ℤ) (ids : List ℤ)
  | deleteObs (ids : List ℤ)
deriving DecidableEq, Repr

/-- Whether an action is a diff request. -/
def Action.isDiffFetch : Action → Bool
  | Action.diffFetch _ _ => true
  | _ => false

/-- Environment of one `Observations.update` call: the checkpoint store
(`increment_get`, per taxo group at the configured site), the diff feed the
API returns for a taxo group and a `since` date, and the current time
(`datetime.now()`). -/
structure UpdateEnv where
  checkpoints : ℤ → Option ℤ
  diff : ℤ → ℤ → List DiffItem
  now : ℤ

/-- The `since` resolution of one loop iteration of `Observations.update`
(`if since is None: since = self._backend.increment_get(site, taxo)`): the
checkpoint store is consulted only while the shared `since` variable is
still `None`. -/
def resolveSince (env : UpdateEnv) (sinceVar : Option ℤ) (taxo : ℤ) :
    Option ℤ :=
  match sinceVar with
  | none => env.checkpoints taxo
  | some s => some s

/-- The taxo-group loop of `Observations.update` (lines 637-721 of
`download_vn.py`), modelled per group as the list of observable actions it
performs.  `sinceVar` is the `since` parameter of the Python method: it is a
single variable shared across loop iterations, so the source assigns it from
the checkpoint store only while it is still `None`
(`if since is None: since = self._backend.increment_get(site, taxo)`).
With no resolvable date the group performs no action (an error is logged and
the loop moves on).  With a date, the group writes the checkpoint, fetches
and classifies the diff; an unknown modification type raises, which aborts
the whole call (second component `false`); otherwise the updated ids are
stored in batches of `maxB` and the deleted ids removed with one
`delete_obs` call, guarded by the `len(...) > 0` tests of the source. -/
def updateLoop (env : UpdateEnv) (maxB : ℕ) :
    Option ℤ → List ℤ → List (ℤ × List Action) × Bool
  | _, [] => ([], true)
  | sinceVar, taxo :: rest =>
    let sv := resolveSince env sinceVar taxo
    match sv with
    | none =>
      let r := updateLoop env maxB none rest
      ((taxo, []) :: r.1, r.2)
    | some s =>
      match classifyDiff (env.diff taxo s) with
      | Except.error _ =>
        ([(taxo, [Action.checkpointWrite taxo env.now,
                  Action.diffFetch taxo s])], false)
      | Except.ok (u, d) =>
        let acts := Action.checkpointWrite taxo env.now ::
          Action.diffFetch taxo s ::
          ((if 0 < u.length then
              (batches u maxB).map (Action.storeBatch taxo) else []) ++
           (if 0 < d.length then [Action.deleteObs d] else []))
        let r := updateLoop env maxB (some s) rest
        ((taxo, acts) :: r.1, r.2)

/-- One HTTP response in `DownloadTable.get_table` (`DownloadFromVN.py`):
status code, the `data` array, whether the `transfer-encoding: chunked`
header signals a further page, and the `pagination_key` header. -/
structure Resp where
  status : ℤ
  data : List ℤ
  chunked : Bool
  pagKey : String
deriving DecidableEq, Repr

/-- The inner `while True` pagination loop of `DownloadTable.get_table`
(lines 177-224 of `DownloadFromVN.py`), with fuel.  `fetch` maps the current
`pagination_key` request parameter (absent on the first request) to the
response.  A non-200 status aborts with that status code.  A non-empty
`data` array is stored (one file per page, tagged with the transfer sequence
number `nbXfer`) and its length added to the totalizer `nbElts`.  A chunked
response merges the `pagination_key` header into the parameters, increments
`nbXfer` and repeats; otherwise the loop stops and the totalizer is
returned.  The result pairs the stored pages in fetch order with either the
error status or the final total. -/
def getTableLoop (fetch : Option String → Resp) :
    ℕ → Option String → ℕ → ℕ →
    Option (List (ℕ × List ℤ) × Except ℤ ℕ)
  | 0, _, _, _ => none
  | fuel + 1, key, nbXfer, nbElts =>
    let r := fetch key
    if r.status ≠ 200 then some ([], Except.error r.status)
    else
      let stored := if 0 < r.data.length then [(nbXfer, r.data)] else []
      let nbElts' := if 0 < r.data.length then nbElts + r.data.length else nbElts
      if r.chunked then
        match getTableLoop fetch fuel (some r.pagKey) (nbXfer + 1) nbElts' with
        | none => none
        | some (tr, res) => some (stored ++ tr, res)
      else some (stored, Except.ok nbElts')

/-- One row of a `<table>_json` database table as written by
`StorePostgresql._store_simple`: the record id, the site, and the JSON
payload. -/
structure Row where
  id : ℤ
  site : String
  item : String
deriving DecidableEq, Repr

/-- One element of the `data` array passed to `_store_simple`: its `id` and
its JSON serialization. -/
structure Elem where
  id : ℤ
  item : String
deriving DecidableEq, Repr

/-- The per-element body of `StorePostgresql._store_simple` (lines 115-140 of
`store_postgresql.py`): select the rows whose `id` and `site` equal the
element key; if none exists, insert a new row, otherwise update every row
matching the key in place. -/
def storeOneSimple (site : String) (tbl : List Row) (e : Elem) : List Row :=
  match tbl.find? (fun r => r.id == e.id && r.site == site) with
  | none => tbl ++ [⟨e.id, site, e.item⟩]
  | some _ =>
    tbl.map (fun r =>
      if r.id == e.id && r.site == site then ⟨e.id, site, e.item⟩ else r)

/-- `StorePostgresql._store_simple`: store every element of the `data` array
in turn and return the length of the array. -/
def store_simple (site : String) (tbl : List Row) (items : List Elem) :
    List Row × ℕ :=
  (items.foldl (storeOneSimple site) tbl, items.length)

/-- One row of the `observations_json` table as written by
`StorePostgresql._store_1_observation`: sighting id, site, update timestamp
and JSON payload. -/
structure ObsRow where
  id : ℤ
  site : String
  update_ts : String
  item : String
deriving DecidableEq, Repr

/-- One observation element passed to `_store_1_observation`: the sighting
id and optional update timestamp of `observers[0]`, the insert timestamp,
and the JSON serialization of the element. -/
structure ObsElem where
  id_sighting : ℤ
  update_date : Option String
  insert_date : String
  item : String
deriving DecidableEq, Repr

/-- `StorePostgresql._store_1_observation` (lines 175-240 of
`store_postgresql.py`): pick the update timestamp if present, else the
insert timestamp; select the rows whose `id` and `site` equal
`observers[0].id_sighting` and the configured site; insert a new row if none
exists, otherwise update every matching row in place.  The coordinate
reprojection only rewrites fields inside the JSON payload and is kept
abstract in `item`. -/
def store_1_observation (site : String) (tbl : List ObsRow) (e : ObsElem) :
    List ObsRow :=
  let ts := match e.update_date with
    | some t => t
    | none => e.insert_date
  match tbl.find? (fun r => r.id == e.id_sighting && r.site == site) with
  | none => tbl ++ [⟨e.id_sighting, site, ts, e.item⟩]
  | some _ =>
    tbl.map (fun r =>
      if r.id == e.id_sighting && r.site == site then
        ⟨e.id_sighting, site, ts, e.item⟩ else r)

/-- Number of rows of a simple table carrying a given `(id, site)` key. -/
def keyCount (tbl : List Row) (i : ℤ) (s : String) : ℕ :=
  tbl.countP (fun r => r.id == i && r.site == s)

/-- Number of rows of the observations table carrying a given `(id, site)`
key. -/
def keyCountObs (tbl : List ObsRow) (i : ℤ) (s : String) : ℕ :=
  tbl.countP (fun r => r.id == i && r.site == s)

/-- A table respects the primary-key discipline: at most one row per
`(id, site)` key. -/
def KeyUnique (tbl : List Row) : Prop :=
  ∀ i s, keyCount tbl i s ≤ 1

/-- The observations table respects the primary-key discipline: at most one
row per `(id, site)` key. -/
def KeyUniqueObs (tbl : List ObsRow) : Prop :=
  ∀ i s, keyCountObs tbl i s ≤ 1

/-! ### Concrete instances used by witnesses and counterexamples -/

/-- The controller of the worked example of the spec:
`kp=0.05, ki=0, kd=0, setpoint=300, limits=(1,30)`. -/
def pidEx : PID :=
  { kp := 1/20, ki := 0, kd := 0, setpoint := 300, output_min := 1, output_max := 30 }

/-- A legal controller parameterization (`output_min = output_max = 2 ≥ 1`)
whose scan windows cannot exactly cover `[0, 3)`: every width is `2`. -/
def pidC1 : PID :=
  { kp := 0, ki := 0, kd := 0, setpoint := 0, output_min := 2, output_max := 2 }

/-- A scan environment with no territorial units and a silent backend. -/
def envC1 : ScanEnv := { t_units := [], counts := fun _ _ => 0 }

/-- A two-page fetch sequence: the first response is chunked with key `"k"`,
the second is final. -/
def fetchEx : Option String → Resp
  | none => ⟨200, [10, 11], true, "k"⟩
  | some _ => ⟨200, [12], false, "end"⟩

/-- A checkpoint store holding a date only for taxo group 5, with empty diff
feeds. -/
def env6 : UpdateEnv :=
  { checkpoints := fun t => if t == 5 then some 100 else none,
    diff := fun _ _ => [],
    now := 999 }

/-- A one-group environment for the ordering witness: checkpoint 50
everywhere, one updated entry in every diff feed. -/
def env7 : UpdateEnv :=
  { checkpoints := fun _ => some 50,
    diff := fun _ _ => [⟨7, ModKind.updated⟩],
    now := 111 }

/-- A scan environment whose configured territorial-units list is
non-empty. -/
def env10 : ScanEnv := { t_units := [⟨"01", "FR"⟩], counts := fun _ _ => 0 }

/-! ### General lemmas about the clamp and the controller -/

theorem rmin_eq_min (a b : ℚ) : rmin a b = min a b := (min_def a b).symm

theorem rmax_eq_max (a b : ℚ) : rmax a b = max a b := (max_def a b).symm

theorem le_clamp (x lo hi : ℚ) : lo ≤ clamp x lo hi := by
  rw [clamp, rmax]
  split
  · assumption
  · exact le_refl lo

theorem clamp_le (x lo hi : ℚ) (h : lo ≤ hi) : clamp x lo hi ≤ hi := by
  have hm : rmin x hi ≤ hi := by
    rw [rmin]; split
    · assumption
    · exact le_refl hi
  rw [clamp, rmax]
  split
  · exact hm
  · exact h

theorem one_le_pyInt (q : ℚ) (h : 1 ≤ q) : 1 ≤ pyInt q := by
  rw [pyInt, if_pos (le_trans zero_le_one h)]
  exact Int.le_floor.mpr (by exact_mod_cast h)

theorem PID.step_output_min (p : PID) (m : ℚ) :
    ((p.step m).2).output_min = p.output_min := rfl

theorem PID.step_output_max (p : PID) (m : ℚ) :
    ((p.step m).2).output_max = p.output_max := rfl

theorem PID.step_width_mem (p : PID) (m : ℚ) (h : p.output_min ≤ p.output_max) :
    p.output_min ≤ (p.step m).1 ∧ (p.step m).1 ≤ p.output_max :=
  ⟨le_clamp _ _ _, clamp_le _ _ _ h⟩

theorem PID.run_mem_bounds :
    ∀ (ms : List ℚ) (p : PID), p.output_min ≤ p.output_max →
      ∀ w ∈ p.run ms, p.output_min ≤ w ∧ w ≤ p.output_max := by
  intro ms
  induction ms with
  | nil => intro p _ w hw; simp [PID.run] at hw
  | cons a as ih =>
    intro p hlim w hw
    rw [PID.run] at hw
    rcases List.mem_cons.mp hw with rfl | hw
    · exact PID.step_width_mem p a hlim
    · have := ih ((p.step a).2)
        (by rw [PID.step_output_min, PID.step_output_max]; exact hlim) w hw
      rwa [PID.step_output_min, PID.step_output_max] at this

/-- C3. `RateController.next_width` follows the discrete PID recurrence with
clamped output: the returned width is
`clamp(kp*error + ki*integral_accum + kd*derivative, output_min, output_max)`
with `error = setpoint - measured`, the accumulator updated to the running
sum of errors and `prior_error` to the last error; over any sequence of
measured counts every output stays within `[output_min, output_max]`; and
with `kp=0.05, ki=0, kd=0, setpoint=300, limits=(1,30)`, a measured count of
600 yields width 1. -/
theorem pid_next_width_correct (p : PID) (m : ℚ) (ms : List ℚ)
    (hlim : p.output_min ≤ p.output_max) :
    (p.step m).1 =
      clamp (p.kp * (p.setpoint - m) + p.ki * (p.integral_accum + (p.setpoint - m)) +
        p.kd * ((p.setpoint - m) - p.prior_error)) p.output_min p.output_max
    ∧ (p.step m).2.integral_accum = p.integral_accum + (p.setpoint - m)
    ∧ (p.step m).2.prior_error = p.setpoint - m
    ∧ (∀ w ∈ p.run ms, p.output_min ≤ w ∧ w ≤ p.output_max)
    ∧ (pidEx.step 600).1 = 1 := by
  refine ⟨rfl, rfl, rfl, PID.run_mem_bounds ms p hlim, ?_⟩
  norm_num [PID.step, pidEx, clamp, rmax, rmin]

/-- Witness for `pid_next_width_correct` at the spec worked example. -/
theorem pid_next_width_correct_witness :
    pidEx.output_min ≤ pidEx.output_max ∧ (pidEx.step 600).1 = 1 :=
  ⟨by norm_num [pidEx],
   (pid_next_width_correct pidEx 600 [] (by norm_num [pidEx])).2.2.2.2⟩

/-! ### Differential sync: classification (C4) -/

/-- C4. Every diff entry is classified into exactly one of the `updated` and
`deleted` lists: on success, `updated` is exactly the list of ids of entries
tagged `updated` in feed order, `deleted` likewise, and every entry of the
feed is tagged one of the two; a feed containing an entry of any other kind
makes the classification raise `NotImplementedException`, producing no
output lists at all. -/
theorem classify_diff_correct (feed : List DiffItem) :
    ((∃ it ∈ feed, it.modification_type.isOther = true) →
      classifyDiff feed = Except.error PyErr.notImplementedException)
    ∧ (∀ u d, classifyDiff feed = Except.ok (u, d) →
        u = (feed.filter
              (fun it => it.modification_type == ModKind.updated)).map
              DiffItem.id_sighting
        ∧ d = (feed.filter
              (fun it => it.modification_type == ModKind.deleted)).map
              DiffItem.id_sighting
        ∧ ∀ it ∈ feed, it.modification_type = ModKind.updated
            ∨ it.modification_type = ModKind.deleted) := by
  induction feed with
  | nil =>
    constructor
    · rintro ⟨it, hmem, _⟩
      exact absurd hmem (List.not_mem_nil it)
    · intro u d h
      rw [classifyDiff] at h
      injection h with h
      injection h with hu hd
      subst hu; subst hd
      refine ⟨rfl, rfl, ?_⟩
      intro it hmem
      exact absurd hmem (List.not_mem_nil it)
  | cons it rest ih =>
    cases hk : it.modification_type with
    | updated =>
      constructor
      · rintro ⟨jt, hmem, hother⟩
        rcases List.mem_cons.mp hmem with rfl | hmem
        · rw [hk] at hother; simp [ModKind.isOther] at hother
        · rw [classifyDiff, hk, ih.1 ⟨jt, hmem, hother⟩]
          rfl
      · intro u d h
        rw [classifyDiff, hk] at h
        cases hrest : classifyDiff rest with
        | error e => rw [hrest] at h; simp [Except.map] at h
        | ok p =>
          rw [hrest] at h
          simp only [Except.map] at h
          injection h with h
          cases h
          obtain ⟨h1, h2, h3⟩ := ih.2 p.1 p.2 (by rw [hrest])
          constructor
          · rw [List.filter_cons, if_pos (by simp [hk]), List.map_cons, ← h1]
          constructor
          · rw [List.filter_cons, if_neg (by simp [hk])]
            exact h2
          · intro jt hmem
            rcases List.mem_cons.mp hmem with rfl | hmem
            · exact Or.inl hk
            · exact h3 jt hmem
    | deleted =>
      constructor
      · rintro ⟨jt, hmem, hother⟩
        rcases List.mem_cons.mp hmem with rfl | hmem
        · rw [hk] at hother; simp [ModKind.isOther] at hother
        · rw [classifyDiff, hk, ih.1 ⟨jt, hmem, hother⟩]
          rfl
      · intro u d h
        rw [classifyDiff, hk] at h
        cases hrest : classifyDiff rest with
        | error e => rw [hrest] at h; simp [Except.map] at h
        | ok p =>
          rw [hrest] at h
          simp only [Except.map] at h
          injection h with h
          cases h
          obtain ⟨h1, h2, h3⟩ := ih.2 p.1 p.2 (by rw [hrest])
          constructor
          · rw [List.filter_cons, if_neg (by simp [hk])]
            exact h1
          constructor
          · rw [List.filter_cons, if_pos (by simp [hk]), List.map_cons, ← h2]
          · intro jt hmem
            rcases List.mem_cons.mp hmem with rfl | hmem
            · exact Or.inr hk
            · exact h3 jt hmem
    | other s =>
      constructor
      · intro _
        rw [classifyDiff, hk]
      · intro u d h
        rw [classifyDiff, hk] at h
        exact absurd h (by simp)

/-- Witness for `classify_diff_correct`: a feed holding an entry of an
unrecognized kind is rejected with `NotImplementedException`. -/
theorem classify_diff_correct_witness :
    classifyDiff [⟨1, ModKind.updated⟩, ⟨2, ModKind.other "probable"⟩]
      = Except.error PyErr.notImplementedException :=
  (classify_diff_correct [⟨1, ModKind.updated⟩, ⟨2, ModKind.other "probable"⟩]).1
    ⟨⟨2, ModKind.other "probable"⟩, by decide, by decide⟩

/-! ### Differential sync: batching (C5) -/

theorem batches_nil (L : ℕ) : batches [] L = [] := by
  cases L with
  | zero => rfl
  | succ n =>
    simp [batches, Nat.div_eq_of_lt (Nat.lt_succ_self n)]

theorem batches_cons (l : List ℤ) (L : ℕ) (hL : 1 ≤ L) (hl : l ≠ []) :
    batches l L = l.take L :: batches (l.drop L) L := by
  have hn : 1 ≤ l.length := List.length_pos.mpr hl
  have hcount : (l.length + L - 1) / L = (l.length - 1) / L + 1 := by
    have h1 : l.length + L - 1 = (l.length - 1) + L := by omega
    rw [h1, Nat.add_div_right _ (by omega)]
  have hcount' : ((l.drop L).length + L - 1) / L = (l.length - 1) / L := by
    rw [List.length_drop]
    rcases le_or_lt l.length L with hle | hlt
    · rw [show l.length - L + L - 1 = L - 1 by omega]
      rw [Nat.div_eq_of_lt (by omega), Nat.div_eq_of_lt (by omega)]
    · rw [show l.length - L + L - 1 = (l.length - 1 - L) + L by omega,
        Nat.add_div_right _ (by omega)]
      conv_rhs => rw [show l.length - 1 = (l.length - 1 - L) + L by omega,
        Nat.add_div_right _ (by omega)]
  rw [batches, hcount, List.range_succ_eq_map, List.map_cons]
  rw [batches, hcount']
  congr 1
  · simp
  · rw [List.map_map]
    apply List.map_congr_left
    intro i _
    simp only [Function.comp]
    rw [List.drop_drop]
    congr 2
    rw [Nat.succ_mul]
    omega

theorem batches_flatten (L : ℕ) (hL : 1 ≤ L) (l : List ℤ) :
    (batches l L).flatten = l := by
  have H : ∀ n (l : List ℤ), l.length ≤ n → (batches l L).flatten = l := by
    intro n
    induction n with
    | zero =>
      intro l h
      have hnil : l = [] := List.eq_nil_of_length_eq_zero (by omega)
      subst hnil
      simp [batches_nil]
    | succ n ih =>
      intro l h
      rcases eq_or_ne l [] with rfl | hne
      · simp [batches_nil]
      · rw [batches_cons l L hL hne, List.flatten_cons, ih (l.drop L) ?_,
          List.take_append_drop]
        rw [List.length_drop]
        have := List.length_pos.mpr hne
        omega
  exact H l.length l le_rfl

theorem batches_mem (l : List ℤ) (L : ℕ) (hL : 1 ≤ L) :
    ∀ b ∈ batches l L, b.length ≤ L ∧ b ≠ [] := by
  intro b hb
  rw [batches] at hb
  obtain ⟨i, hi, rfl⟩ := List.mem_map.mp hb
  rw [List.mem_range] at hi
  have hiL : i * L < l.length := by
    have h1 : (i + 1) * L ≤ (l.length + L - 1) / L * L := Nat.mul_le_mul_right L hi
    have h2 : (l.length + L - 1) / L * L ≤ l.length + L - 1 := Nat.div_mul_le_self _ _
    have h4 : L ≤ l.length + L - 1 := by
      by_contra hc
      push_neg at hc
      have := Nat.div_eq_of_lt hc
      omega
    have h5 : (i + 1) * L = i * L + L := by rw [Nat.succ_mul]
    omega
  constructor
  · exact List.length_take_le L _
  · rw [← List.length_pos, List.length_take, List.length_drop]
    omega

/-- C5. The `updated` id list is cut into the Python slices
`updated[i*L : (i+1)*L]` for `i < (n + L - 1) // L`: the number of batches is
exactly `ceil(n / L)` (written as the source computes it), their
concatenation in order is the original list (each id covered exactly once,
order preserved, one fetch per batch), every batch is non-empty with at most
`L` ids, and the 7-id, `L = 3` instance gives batch sizes `3, 3, 1`. -/
theorem update_batches_correct (l : List ℤ) (L : ℕ) (hL : 1 ≤ L) :
    (batches l L).length = (l.length + L - 1) / L
    ∧ (batches l L).flatten = l
    ∧ (∀ b ∈ batches l L, b.length ≤ L ∧ b ≠ [])
    ∧ (batches [1, 2, 3, 4, 5, 6, 7] 3).map List.length = [3, 3, 1] := by
  refine ⟨by simp [batches], batches_flatten L hL l, batches_mem l L hL, ?_⟩
  decide

/-- Witness for `update_batches_correct` at the 7-id, `max_batch = 3`
instance of the spec. -/
theorem update_batches_correct_witness :
    (batches [1, 2, 3, 4, 5, 6, 7] 3).flatten = [1, 2, 3, 4, 5, 6, 7]
    ∧ (batches [1, 2, 3, 4, 5, 6, 7] 3).map List.length = [3, 3, 1] :=
  ⟨(update_batches_correct [1, 2, 3, 4, 5, 6, 7] 3 (by decide)).2.1,
   (update_batches_correct [1, 2, 3, 4, 5, 6, 7] 3 (by decide)).2.2.2⟩

/-! ### Storage upsert (C9) -/

theorem countP_ext {α : Type} (p q : α → Bool) :
    ∀ l : List α, (∀ a ∈ l, p a = q a) → l.countP p = l.countP q := by
  intro l
  induction l with
  | nil => intro _; rfl
  | cons a l ih =>
    intro h
    rw [List.countP_cons, List.countP_cons, h a (List.mem_cons_self a l),
      ih (fun b hb => h b (List.mem_cons.mpr (Or.inr hb)))]

theorem storeOneSimple_keyCount_self (site : String) (tbl : List Row) (e : Elem)
    (h : KeyUnique tbl) :
    keyCount (storeOneSimple site tbl e) e.id site = 1 := by
  rw [storeOneSimple]
  cases hf : tbl.find? (fun r => r.id == e.id && r.site == site) with
  | none =>
    have hz : List.countP (fun r => r.id == e.id && r.site == site) tbl = 0 :=
      List.countP_eq_zero.mpr (List.find?_eq_none.mp hf)
    rw [keyCount, List.countP_append, hz]
    simp
  | some r =>
    have hp := List.find?_some hf
    have hmem := List.mem_of_find?_eq_some hf
    have hge : 1 ≤ keyCount tbl e.id site :=
      List.countP_pos_iff.mpr ⟨r, hmem, hp⟩
    have heq : keyCount tbl e.id site = 1 := le_antisymm (h e.id site) hge
    rw [keyCount, List.countP_map, ← heq, keyCount]
    apply countP_ext
    intro r2 _
    by_cases hc : (r2.id == e.id && r2.site == site) = true
    · simp only [Function.comp_apply, if_pos hc]
      rw [hc]
      simp
    · simp only [Function.comp_apply, if_neg hc]

theorem storeOneSimple_keyCount_other (site : String) (tbl : List Row) (e : Elem)
    (i : ℤ) (s : String) (hne : ¬(i = e.id ∧ s = site)) :
    keyCount (storeOneSimple site tbl e) i s = keyCount tbl i s := by
  rw [storeOneSimple]
  cases hf : tbl.find? (fun r => r.id == e.id && r.site == site) with
  | none =>
    rw [keyCount, List.countP_append, keyCount]
    have hz : List.countP (fun r => r.id == i && r.site == s)
        [(⟨e.id, site, e.item⟩ : Row)] = 0 := by
      simp only [List.countP_cons, List.countP_nil, Bool.and_eq_true, beq_iff_eq]
      rw [if_neg]
      rintro ⟨h1, h2⟩
      exact hne ⟨h1.symm, h2.symm⟩
    rw [hz, Nat.add_zero]
  | some r =>
    rw [keyCount, List.countP_map, keyCount]
    apply countP_ext
    intro r2 _
    by_cases hc : (r2.id == e.id && r2.site == site) = true
    · simp only [Function.comp_apply, if_pos hc]
      simp only [Bool.and_eq_true, beq_iff_eq] at hc
      rw [← hc.1, ← hc.2]
    · simp only [Function.comp_apply, if_neg hc]

theorem storeOneSimple_keyUnique (site : String) (tbl : List Row) (e : Elem)
    (h : KeyUnique tbl) : KeyUnique (storeOneSimple site tbl e) := by
  intro i s
  by_cases hc : i = e.id ∧ s = site
  · rw [hc.1, hc.2, storeOneSimple_keyCount_self site tbl e h]
  · rw [storeOneSimple_keyCount_other site tbl e i s hc]
    exact h i s

theorem store_1_observation_keyCount_self (site : String) (tbl : List ObsRow)
    (e : ObsElem) (h : KeyUniqueObs tbl) :
    keyCountObs (store_1_observation site tbl e) e.id_sighting site = 1 := by
  rw [store_1_observation]
  cases hf : tbl.find? (fun r => r.id == e.id_sighting && r.site == site) with
  | none =>
    have hz : List.countP (fun r => r.id == e.id_sighting && r.site == site) tbl = 0 :=
      List.countP_eq_zero.mpr (List.find?_eq_none.mp hf)
    rw [keyCountObs, List.countP_append, hz]
    simp
  | some r =>
    have hp := List.find?_some hf
    have hmem := List.mem_of_find?_eq_some hf
    have hge : 1 ≤ keyCountObs tbl e.id_sighting site :=
      List.countP_pos_iff.mpr ⟨r, hmem, hp⟩
    have heq : keyCountObs tbl e.id_sighting site = 1 :=
      le_antisymm (h e.id_sighting site) hge
    rw [keyCountObs, List.countP_map, ← heq, keyCountObs]
    apply countP_ext
    intro r2 _
    by_cases hc : (r2.id == e.id_sighting && r2.site == site) = true
    · simp only [Function.comp_apply, if_pos hc]
      rw [hc]
      simp
    · simp only [Function.comp_apply, if_neg hc]

theorem store_1_observation_keyCount_other (site : String) (tbl : List ObsRow)
    (e : ObsElem) (i : ℤ) (s : String) (hne : ¬(i = e.id_sighting ∧ s = site)) :
    keyCountObs (store_1_observation site tbl e) i s = keyCountObs tbl i s := by
  rw [store_1_observation]
  cases hf : tbl.find? (fun r => r.id == e.id_sighting && r.site == site) with
  | none =>
    rw [keyCountObs, List.countP_append, keyCountObs]
    have hz : List.countP (fun r => r.id == i && r.site == s)
        [(⟨e.id_sighting, site,
          match e.update_date with | some t => t | none => e.insert_date,
          e.item⟩ : ObsRow)] = 0 := by
      simp only [List.countP_cons, List.countP_nil, Bool.and_eq_true, beq_iff_eq]
      rw [if_neg]
      rintro ⟨h1, h2⟩
      exact hne ⟨h1.symm, h2.symm⟩
    rw [hz, Nat.add_zero]
  | some r =>
    rw [keyCountObs, List.countP_map, keyCountObs]
    apply countP_ext
    intro r2 _
    by_cases hc : (r2.id == e.id_sighting && r2.site == site) = true
    · simp only [Function.comp_apply, if_pos hc]
      simp only [Bool.and_eq_true, beq_iff_eq] at hc
      rw [← hc.1, ← hc.2]
    · simp only [Function.comp_apply, if_neg hc]

theorem store_1_observation_keyUnique (site : String) (tbl : List ObsRow)
    (e : ObsElem) (h : KeyUniqueObs tbl) :
    KeyUniqueObs (store_1_observation site tbl e) := by
  intro i s
  by_cases hc : i = e.id_sighting ∧ s = site
  · rw [hc.1, hc.2, store_1_observation_keyCount_self site tbl e h]
  · rw [store_1_observation_keyCount_other site tbl e i s hc]
    exact h i s

/-- C9. Both storage paths are idempotent upserts keyed by `(id, site)`: on
a table respecting the primary-key discipline, storing the same element
twice through `_store_simple` leaves exactly one row for its key, and
likewise for `_store_1_observation`; the key discipline is preserved. -/
theorem store_upsert_idempotent (site : String) (tbl : List Row) (e : Elem)
    (tblo : List ObsRow) (eo : ObsElem)
    (h : KeyUnique tbl) (ho : KeyUniqueObs tblo) :
    keyCount (storeOneSimple site (storeOneSimple site tbl e) e) e.id site = 1
    ∧ KeyUnique (storeOneSimple site (storeOneSimple site tbl e) e)
    ∧ keyCountObs
        (store_1_observation site (store_1_observation site tblo eo) eo)
        eo.id_sighting site = 1
    ∧ KeyUniqueObs
        (store_1_observation site (store_1_observation site tblo eo) eo) := by
  have h1 := storeOneSimple_keyUnique site tbl e h
  have ho1 := store_1_observation_keyUnique site tblo eo ho
  exact ⟨storeOneSimple_keyCount_self site _ e h1,
    storeOneSimple_keyUnique site _ e h1,
    store_1_observation_keyCount_self site _ eo ho1,
    store_1_observation_keyUnique site _ eo ho1⟩

/-- Witness for `store_upsert_idempotent`: storing the record with id 1 twice
into an empty table leaves exactly one row for its key. -/
theorem store_upsert_idempotent_witness :
    keyCount (storeOneSimple "s" (storeOneSimple "s" [] ⟨1, "x"⟩) ⟨1, "x"⟩) 1 "s" = 1
    ∧ keyCountObs
        (store_1_observation "s" (store_1_observation "s" [] ⟨2, none, "t", "y"⟩)
          ⟨2, none, "t", "y"⟩) 2 "s" = 1 := by
  have h := store_upsert_idempotent "s" [] ⟨1, "x"⟩ [] ⟨2, none, "t", "y"⟩
    (fun i s => by simp [keyCount]) (fun i s => by simp [keyCountObs])
  exact ⟨h.1, h.2.2.1⟩

/-! ### Chunked paginator (C8) -/

/-- C8. When the pagination loop of `get_table` finishes without a transport
error, the returned count equals the initial totalizer plus the summed item
counts of all stored pages; the pages passed to the store are exactly the
non-empty pages, in fetch order (their transfer sequence numbers are at
least the starting one and strictly increase). -/
theorem get_table_pagination_correct (fetch : Option String → Resp) :
    ∀ (fuel : ℕ) (key : Option String) (x e : ℕ) (tr : List (ℕ × List ℤ))
      (total : ℕ),
      getTableLoop fetch fuel key x e = some (tr, Except.ok total) →
      total = e + (tr.map (fun pg => pg.2.length)).sum
      ∧ (∀ pg ∈ tr, pg.2 ≠ [] ∧ x ≤ pg.1)
      ∧ List.Pairwise (fun a b => a.1 < b.1) tr := by
  intro fuel
  induction fuel with
  | zero =>
    intro key x e tr total h
    exact absurd h (by simp [getTableLoop])
  | succ fuel ih =>
    intro key x e tr total h
    rw [getTableLoop] at h
    by_cases hs : (fetch key).status ≠ 200
    · rw [if_pos hs] at h
      simp at h
    · rw [if_neg hs] at h
      simp only at h
      by_cases hd : 0 < (fetch key).data.length
      · simp only [if_pos hd] at h
        by_cases hc : (fetch key).chunked
        · rw [if_pos hc] at h
          cases hrec : getTableLoop fetch fuel (some (fetch key).pagKey) (x + 1)
              (e + (fetch key).data.length) with
          | none => rw [hrec] at h; simp at h
          | some pr =>
            obtain ⟨tr', res'⟩ := pr
            rw [hrec] at h
            simp only [Option.some.injEq, Prod.mk.injEq] at h
            obtain ⟨htr, hres⟩ := h
            subst htr
            rw [hres] at hrec
            obtain ⟨ih1, ih2, ih3⟩ :=
              ih (some (fetch key).pagKey) (x + 1) (e + (fetch key).data.length)
                tr' total hrec
            refine ⟨?_, ?_, ?_⟩
            · rw [ih1]
              simp only [List.map_append, List.sum_append, List.map_cons,
                List.map_nil, List.sum_cons, List.sum_nil]
              omega
            · intro pg hpg
              rcases List.mem_append.mp hpg with hpg | hpg
              · rcases List.mem_singleton.mp hpg with rfl
                exact ⟨by simpa using List.length_pos.mp hd, le_refl x⟩
              · exact ⟨(ih2 pg hpg).1, le_trans (Nat.le_succ x) (ih2 pg hpg).2⟩
            · rw [List.pairwise_append]
              refine ⟨List.pairwise_singleton _ _, ih3, ?_⟩
              intro a ha b hb
              rcases List.mem_singleton.mp ha with rfl
              exact lt_of_lt_of_le (Nat.lt_succ_self x) (ih2 b hb).2
        · rw [if_neg hc] at h
          simp only [Option.some.injEq, Prod.mk.injEq, Except.ok.injEq] at h
          obtain ⟨htr, htot⟩ := h
          subst htr
          refine ⟨?_, ?_, ?_⟩
          · simp only [List.map_cons, List.map_nil, List.sum_cons, List.sum_nil]
            omega
          · intro pg hpg
            rcases List.mem_singleton.mp hpg with rfl
            exact ⟨by simpa using List.length_pos.mp hd, le_refl x⟩
          · exact List.pairwise_singleton _ _
      · simp only [if_neg hd] at h
        by_cases hc : (fetch key).chunked
        · rw [if_pos hc] at h
          cases hrec : getTableLoop fetch fuel (some (fetch key).pagKey) (x + 1)
              e with
          | none => rw [hrec] at h; simp at h
          | some pr =>
            obtain ⟨tr', res'⟩ := pr
            rw [hrec] at h
            simp only [List.nil_append, Option.some.injEq, Prod.mk.injEq] at h
            obtain ⟨htr, hres⟩ := h
            subst htr
            rw [hres] at hrec
            obtain ⟨ih1, ih2, ih3⟩ := ih (some (fetch key).pagKey) (x + 1) e
              tr' total hrec
            exact ⟨ih1, fun pg hpg =>
              ⟨(ih2 pg hpg).1, le_trans (Nat.le_succ x) (ih2 pg hpg).2⟩, ih3⟩
        · rw [if_neg hc] at h
          simp only [Option.some.injEq, Prod.mk.injEq, Except.ok.injEq] at h
          obtain ⟨htr, htot⟩ := h
          subst htr
          refine ⟨by simpa using htot.symm, ?_, List.Pairwise.nil⟩
          intro pg hpg
          exact absurd hpg (List.not_mem_nil pg)

/-- Witness for `get_table_pagination_correct` on a concrete two-page
transfer. -/
theorem get_table_pagination_correct_witness :
    (3 : ℕ) = 0 + (([(1, ([10, 11] : List ℤ)), (2, [12])].map
      (fun pg => pg.2.length)).sum)
    ∧ (∀ pg ∈ [(1, ([10, 11] : List ℤ)), (2, [12])], pg.2 ≠ [] ∧ 1 ≤ pg.1)
    ∧ List.Pairwise (fun a b => a.1 < b.1) [(1, ([10, 11] : List ℤ)), (2, [12])] :=
  get_table_pagination_correct fetchEx 3 none 1 0
    [(1, [10, 11]), (2, [12])] 3 (by decide)

/-! ### Differential sync: baseline resolution (C6) and ordering (C7) -/

/-- C6 failing input.  With no explicit `since` and a checkpoint recorded
only for group 5, processing `[5, 6]` does not skip group 6 (whose
checkpoint store entry is empty): because the Python `since` variable is
shared across loop iterations, group 6 inherits the value resolved for
group 5 and its diff is fetched with `since = 100`. -/
theorem update_since_shared_across_groups :
    env6.checkpoints 6 = none
    ∧ updateLoop env6 3 none [5, 6]
      = ([(5, [Action.checkpointWrite 5 999, Action.diffFetch 5 100]),
          (6, [Action.checkpointWrite 6 999, Action.diffFetch 6 100])], true) := by
  constructor
  · decide
  · decide

theorem updateLoop_cons (env : UpdateEnv) (maxB : ℕ) (sv : Option ℤ)
    (taxo : ℤ) (rest : List ℤ) :
    updateLoop env maxB sv (taxo :: rest) =
      match resolveSince env sv taxo with
      | none =>
        ((taxo, []) :: (updateLoop env maxB none rest).1,
         (updateLoop env maxB none rest).2)
      | some s =>
        match classifyDiff (env.diff taxo s) with
        | Except.error _ =>
          ([(taxo, [Action.checkpointWrite taxo env.now,
                    Action.diffFetch taxo s])], false)
        | Except.ok (u, d) =>
          ((taxo, Action.checkpointWrite taxo env.now ::
              Action.diffFetch taxo s ::
              ((if 0 < u.length then
                  (batches u maxB).map (Action.storeBatch taxo) else []) ++
               (if 0 < d.length then [Action.deleteObs d] else []))) ::
            (updateLoop env maxB (some s) rest).1,
           (updateLoop env maxB (some s) rest).2) := by
  rw [updateLoop.eq_def]

theorem updateLoop_group_shape (env : UpdateEnv) (maxB : ℕ) :
    ∀ (taxos : List ℤ) (sv : Option ℤ) (t : ℤ) (acts : List Action),
      (t, acts) ∈ (updateLoop env maxB sv taxos).1 →
      acts = [] ∨ ∃ s tail, acts = Action.checkpointWrite t env.now ::
        Action.diffFetch t s :: tail ∧ ∀ a ∈ tail, a.isDiffFetch = false := by
  intro taxos
  induction taxos with
  | nil =>
    intro sv t acts h
    simp [updateLoop] at h
  | cons taxo rest ih =>
    intro sv t acts h
    rw [updateLoop_cons] at h
    cases hsv : resolveSince env sv taxo with
    | none =>
      simp only [hsv] at h
      rcases List.mem_cons.mp h with heq | hmem
      · injection heq with h1 h2
        exact Or.inl h2
      · exact ih none t acts hmem
    | some s =>
      simp only [hsv] at h
      cases hcl : classifyDiff (env.diff taxo s) with
      | error e =>
        simp only [hcl] at h
        rcases List.mem_singleton.mp h with heq
        injection heq with h1 h2
        subst h1
        subst h2
        exact Or.inr ⟨s, [], rfl, by intro a ha; exact absurd ha (List.not_mem_nil a)⟩
      | ok p =>
        obtain ⟨u, d⟩ := p
        simp only [hcl] at h
        rcases List.mem_cons.mp h with heq | hmem
        · injection heq with h1 h2
          subst h1
          subst h2
          refine Or.inr ⟨s, _, rfl, ?_⟩
          intro a ha
          rcases List.mem_append.mp ha with ha | ha
          · by_cases hu : 0 < u.length
            · rw [if_pos hu] at ha
              obtain ⟨b, _, rfl⟩ := List.mem_map.mp ha
              rfl
            · rw [if_neg hu] at ha
              exact absurd ha (List.not_mem_nil a)
          · by_cases hd : 0 < d.length
            · rw [if_pos hd] at ha
              rcases List.mem_singleton.mp ha with rfl
              rfl
            · rw [if_neg hd] at ha
              exact absurd ha (List.not_mem_nil a)
        · exact ih (some s) t acts hmem

/-- C7. In every group trace produced by `update`, a diff request is always
preceded by the checkpoint write for the same taxo group: the source calls
`increment_log(site, taxo, now)` strictly before `api_diff(taxo, since)`. -/
theorem update_checkpoint_before_diff (env : UpdateEnv) (maxB : ℕ)
    (sv : Option ℤ) (taxos : List ℤ) (t : ℤ) (acts : List Action)
    (hmem : (t, acts) ∈ (updateLoop env maxB sv taxos).1)
    (j : ℕ) (t2 s : ℤ)
    (hj : acts[j]? = some (Action.diffFetch t2 s)) :
    ∃ i, i < j ∧ acts[i]? = some (Action.checkpointWrite t2 env.now) := by
  rcases updateLoop_group_shape env maxB taxos sv t acts hmem with
    rfl | ⟨s0, tail, rfl, htail⟩
  · simp at hj
  · match j with
    | 0 => simp at hj
    | 1 =>
      simp only [List.getElem?_cons_succ, List.getElem?_cons_zero,
        Option.some.injEq, Action.diffFetch.injEq] at hj
      obtain ⟨h1, h2⟩ := hj
      subst h1
      exact ⟨0, Nat.zero_lt_one, by simp⟩
    | k + 2 =>
      simp only [List.getElem?_cons_succ] at hj
      have hmem2 : Action.diffFetch t2 s ∈ tail := by
        have := List.getElem?_eq_some_iff.mp hj
        obtain ⟨hk, hget⟩ := this
        exact hget ▸ List.getElem_mem hk
      have := htail _ hmem2
      simp [Action.isDiffFetch] at this

/-- Witness for `update_checkpoint_before_diff` on a concrete one-group
trace. -/
theorem update_checkpoint_before_diff_witness :
    ∃ i, i < 1 ∧ [Action.checkpointWrite 4 111, Action.diffFetch 4 50,
      Action.storeBatch 4 [7]][i]? = some (Action.checkpointWrite 4 111) :=
  update_checkpoint_before_diff env7 3 none [4] 4
    [Action.checkpointWrite 4 111, Action.diffFetch 4 50,
      Action.storeBatch 4 [7]]
    (by decide) 1 4 50 (by decide)

/-! ### The windowed scan (C1, C2, C10) -/

theorem PID.step_width_ge_min (p : PID) (m : ℚ) :
    p.output_min ≤ (p.step m).1 :=
  le_clamp _ _ _

theorem windowObs_some_ok (env : ScanEnv) (l : List String) (seq : ℕ) :
    ∃ v, windowObs env (some l) seq = Except.ok v := by
  rw [windowObs]
  suffices h : ∀ (tus : List TUnit) (acc : ℤ), ∃ v,
      tus.foldlM
        (fun nb tu => do
          let b ← pyIn tu.short_name (some l)
          pure (if b then nb + env.counts seq tu.short_name else nb))
        acc = Except.ok v from h env.t_units 0
  intro tus
  induction tus with
  | nil => intro acc; exact ⟨acc, rfl⟩
  | cons tu tus ih =>
    intro acc
    rw [List.foldlM_cons]
    exact ih _

theorem windowObs_none_error (env : ScanEnv) (seq : ℕ)
    (h : env.t_units ≠ []) :
    windowObs env none seq = Except.error PyErr.typeError := by
  rw [windowObs]
  cases htu : env.t_units with
  | nil => exact absurd htu h
  | cons tu tus =>
    rw [List.foldlM_cons]
    rfl

theorem scanLoopF_succ (env : ScanEnv) (tuids : Option (List String))
    (minD : ℤ) (fuel : ℕ) (p : PID) (endD delta : ℤ) (seq : ℕ) :
    scanLoopF env tuids minD (fuel + 1) p endD delta seq =
      if minD < endD then
        match windowObs env tuids seq with
        | Except.error e => some (Except.error e)
        | Except.ok nb =>
          match scanLoopF env tuids minD fuel (p.step (nb : ℚ)).2 (endD - delta)
              (pyInt (p.step (nb : ℚ)).1) (seq + 1) with
          | none => none
          | some (Except.error e) => some (Except.error e)
          | some (Except.ok ws) => some (Except.ok ((endD - delta, endD) :: ws))
      else some (Except.ok []) := by
  rw [scanLoopF.eq_def]

theorem scanLoopF_total (env : ScanEnv) (l : List String) (minD : ℤ) :
    ∀ (n : ℕ) (p : PID) (endD delta : ℤ) (seq : ℕ),
      1 ≤ p.output_min → 1 ≤ delta → (endD - minD).toNat < n →
      ∃ ws, scanLoopF env (some l) minD n p endD delta seq
        = some (Except.ok ws) := by
  intro n
  induction n with
  | zero =>
    intro p endD delta seq _ _ hm
    omega
  | succ n ih =>
    intro p endD delta seq hp hd hm
    by_cases hlt : minD < endD
    · obtain ⟨v, hv⟩ := windowObs_some_ok env l seq
      rw [scanLoopF_succ, if_pos hlt]
      obtain ⟨ws, hws⟩ := ih ((p.step (v : ℚ)).2) (endD - delta)
        (pyInt ((p.step (v : ℚ)).1)) (seq + 1)
        (by rw [PID.step_output_min]; exact hp)
        (one_le_pyInt _ (le_trans hp (PID.step_width_ge_min p _)))
        (by omega)
      simp only [hv, hws]
      exact ⟨(endD - delta, endD) :: ws, rfl⟩
    · rw [scanLoopF_succ, if_neg hlt]
      exact ⟨[], rfl⟩

/-- C2. For every `end_date > floor_date` and every controller
parameterization with `output_min ≥ 1`, the backward sweep of
`_store_search` terminates: some finite fuel completes the loop normally,
whatever the seed `delta_days` and the backend counts, because from the
second iteration on every width is at least one day. -/
theorem scan_terminates (env : ScanEnv) (l : List String)
    (minD endD delta0 : ℤ) (p : PID)
    (hmin : 1 ≤ p.output_min) (hlt : minD < endD) :
    ∃ n ws, scanLoopF env (some l) minD n p endD delta0 1
      = some (Except.ok ws) := by
  obtain ⟨v, hv⟩ := windowObs_some_ok env l 1
  obtain ⟨ws, hws⟩ := scanLoopF_total env l minD
    ((endD - delta0 - minD).toNat + 1) ((p.step (v : ℚ)).2) (endD - delta0)
    (pyInt ((p.step (v : ℚ)).1)) (1 + 1)
    (by rw [PID.step_output_min]; exact hmin)
    (one_le_pyInt _ (le_trans hmin (PID.step_width_ge_min p _)))
    (by omega)
  refine ⟨(endD - delta0 - minD).toNat + 1 + 1, (endD - delta0, endD) :: ws, ?_⟩
  rw [scanLoopF_succ, if_pos hlt]
  simp only [hv, hws]

/-- Witness for `scan_terminates`: a concrete scan from day 3 down to day 0
completes. -/
theorem scan_terminates_witness :
    ∃ n ws, scanLoopF envC1 (some []) 0 n pidC1 3 2 1
      = some (Except.ok ws) :=
  scan_terminates envC1 [] 0 3 2 pidC1 (by norm_num [pidC1]) (by norm_num)

theorem scanLoopF_chain (env : ScanEnv) (l : List String) (minD : ℤ) :
    ∀ (n : ℕ) (p : PID) (endD delta : ℤ) (seq : ℕ) (ws : List (ℤ × ℤ)),
      1 ≤ p.output_min → 1 ≤ delta →
      scanLoopF env (some l) minD n p endD delta seq = some (Except.ok ws) →
      isChain endD ws ∧ chainBottom endD ws ≤ minD := by
  intro n
  induction n with
  | zero =>
    intro p endD delta seq ws _ _ h
    exact absurd h (by rw [scanLoopF]; simp)
  | succ n ih =>
    intro p endD delta seq ws hp hd h
    by_cases hlt : minD < endD
    · obtain ⟨v, hv⟩ := windowObs_some_ok env l seq
      rw [scanLoopF_succ, if_pos hlt] at h
      simp only [hv] at h
      cases hrec : scanLoopF env (some l) minD n ((p.step (v : ℚ)).2)
          (endD - delta) (pyInt ((p.step (v : ℚ)).1)) (seq + 1) with
      | none => simp only [hrec] at h; exact Option.noConfusion h
      | some res =>
        cases res with
        | error e =>
          simp only [hrec] at h
          exact Except.noConfusion (Option.some.inj h)
        | ok ws' =>
          simp only [hrec, Option.some.injEq, Except.ok.injEq] at h
          subst h
          obtain ⟨hc, hb⟩ := ih ((p.step (v : ℚ)).2) (endD - delta)
            (pyInt ((p.step (v : ℚ)).1)) (seq + 1) ws'
            (by rw [PID.step_output_min]; exact hp)
            (one_le_pyInt _ (le_trans hp (PID.step_width_ge_min p _))) hrec
          refine ⟨⟨rfl, by omega, hc⟩, ?_⟩
          exact hb
    · rw [scanLoopF_succ, if_neg hlt] at h
      simp only [Option.some.injEq, Except.ok.injEq] at h
      subst h
      refine ⟨trivial, ?_⟩
      have hcb : chainBottom endD ([] : List (ℤ × ℤ)) = endD := rfl
      omega

theorem chainBottom_le (ws : List (ℤ × ℤ)) :
    ∀ e, isChain e ws → chainBottom e ws ≤ e := by
  induction ws with
  | nil => intro e _; exact le_refl e
  | cons w rest ih =>
    intro e hch
    obtain ⟨h1, h2, h3⟩ := hch
    have hb := ih w.1 h3
    have : chainBottom e (w :: rest) = chainBottom w.1 rest := rfl
    omega

theorem chain_mem_bounds (ws : List (ℤ × ℤ)) :
    ∀ e, isChain e ws → ∀ w ∈ ws, chainBottom e ws ≤ w.1 ∧ w.2 ≤ e := by
  induction ws with
  | nil =>
    intro e _ w hw
    exact absurd hw (List.not_mem_nil w)
  | cons w0 rest ih =>
    intro e hch w hw
    obtain ⟨h1, h2, h3⟩ := hch
    have heq : chainBottom e (w0 :: rest) = chainBottom w0.1 rest := rfl
    rcases List.mem_cons.mp hw with rfl | hw
    · have := chainBottom_le rest w.1 h3
      constructor
      · rw [heq]; exact this
      · omega
    · obtain ⟨ha, hb⟩ := ih w0.1 h3 w hw
      exact ⟨heq ▸ ha, by omega⟩

theorem chain_cover (ws : List (ℤ × ℤ)) :
    ∀ e, isChain e ws → ∀ x : ℤ, chainBottom e ws ≤ x → x < e →
      ∃ w ∈ ws, w.1 ≤ x ∧ x < w.2 := by
  induction ws with
  | nil =>
    intro e _ x hb hx
    have : chainBottom e ([] : List (ℤ × ℤ)) = e := rfl
    omega
  | cons w0 rest ih =>
    intro e hch x hb hx
    obtain ⟨h1, h2, h3⟩ := hch
    have heq : chainBottom e (w0 :: rest) = chainBottom w0.1 rest := rfl
    by_cases hx1 : w0.1 ≤ x
    · exact ⟨w0, List.mem_cons_self w0 rest, hx1, by omega⟩
    · obtain ⟨w, hw, hw1, hw2⟩ := ih w0.1 h3 x (heq ▸ hb) (by omega)
      exact ⟨w, List.mem_cons.mpr (Or.inr hw), hw1, hw2⟩

theorem chain_pairwise (ws : List (ℤ × ℤ)) :
    ∀ e, isChain e ws → List.Pairwise (fun a b => b.2 ≤ a.1) ws := by
  induction ws with
  | nil => intro e _; exact List.Pairwise.nil
  | cons w0 rest ih =>
    intro e hch
    obtain ⟨h1, h2, h3⟩ := hch
    refine List.Pairwise.cons ?_ (ih w0.1 h3)
    intro w hw
    exact (chain_mem_bounds rest w0.1 h3 w hw).2

/-- C1 (amended). Under `output_min ≥ 1` and a seed width of at least one
day, a completed scan produces windows that are contiguous and
non-overlapping: every window satisfies `start < end`, each next window ends
where the current one starts (first window ending at `end_date`), the last
window starts at or below `floor_date`, every point of
`[floor_date, end_date)` is covered by a window, every window stays within
`[chainBottom, end_date)`, and the windows are pairwise disjoint.  The union
of the windows is therefore exactly `[chainBottom, end_date)`, a superset of
`[floor_date, end_date)`: the scan can overshoot below `floor_date` in its
last window, so the union is not in general exactly
`[floor_date, end_date)`. -/
theorem scan_windows_partition (env : ScanEnv) (l : List String) (minD : ℤ)
    (n : ℕ) (p : PID) (endD delta : ℤ) (seq : ℕ) (ws : List (ℤ × ℤ))
    (hp : 1 ≤ p.output_min) (hd : 1 ≤ delta)
    (h : scanLoopF env (some l) minD n p endD delta seq
      = some (Except.ok ws)) :
    isChain endD ws
    ∧ chainBottom endD ws ≤ minD
    ∧ (∀ w ∈ ws, chainBottom endD ws ≤ w.1 ∧ w.2 ≤ endD)
    ∧ (∀ x : ℤ, minD ≤ x → x < endD → ∃ w ∈ ws, w.1 ≤ x ∧ x < w.2)
    ∧ List.Pairwise (fun a b => b.2 ≤ a.1) ws := by
  obtain ⟨hc, hb⟩ := scanLoopF_chain env l minD n p endD delta seq ws hp hd h
  exact ⟨hc, hb, chain_mem_bounds ws endD hc,
    fun x hx1 hx2 => chain_cover ws endD hc x (le_trans hb hx1) hx2,
    chain_pairwise ws endD hc⟩

theorem scanC1_eval :
    scanLoopF envC1 (some []) 0 5 pidC1 3 2 1
      = some (Except.ok [(1, 3), (-1, 1)]) := by
  have hobs : ∀ s, windowObs envC1 (some []) s = Except.ok 0 := fun _ => rfl
  have hstep : pidC1.step (0 : ℚ) = (2, pidC1) := by
    norm_num [PID.step, pidC1, clamp, rmax, rmin]
  have hpy : pyInt (2 : ℚ) = 2 := by norm_num [pyInt]
  simp [scanLoopF_succ, hobs, hstep, hpy]

/-- C1 counterexample.  With the legal parameterization `pidC1`
(`output_min = 2 ≥ 1`, every width 2) and `end_date = 3`, `floor_date = 0`,
the scan produces the windows `[1,3)` and `[-1,1)`: the last window starts
at `-1 < 0`, so the union of the produced windows contains the point `-1`
which lies outside `[floor_date, end_date) = [0, 3)` — the union is not
exactly `[floor_date, end_date)`. -/
theorem scan_exact_cover_fails :
    scanLoopF envC1 (some []) 0 5 pidC1 3 2 1
      = some (Except.ok [(1, 3), (-1, 1)])
    ∧ (1 : ℚ) ≤ pidC1.output_min
    ∧ ((-1, 1) : ℤ × ℤ) ∈ [((1 : ℤ), (3 : ℤ)), (-1, 1)]
    ∧ ¬((0 : ℤ) ≤ -1) :=
  ⟨scanC1_eval, by norm_num [pidC1], by decide, by decide⟩

/-- Witness for `scan_windows_partition` on the concrete two-window scan. -/
theorem scan_windows_partition_witness :
    isChain 3 [(1, 3), (-1, 1)]
    ∧ chainBottom 3 [(1, 3), (-1, 1)] ≤ 0
    ∧ (∀ w ∈ [((1 : ℤ), (3 : ℤ)), (-1, 1)],
        chainBottom 3 [(1, 3), (-1, 1)] ≤ w.1 ∧ w.2 ≤ 3)
    ∧ (∀ x : ℤ, 0 ≤ x → x < 3 →
        ∃ w ∈ [((1 : ℤ), (3 : ℤ)), (-1, 1)], w.1 ≤ x ∧ x < w.2)
    ∧ List.Pairwise (fun a b => b.2 ≤ a.1) [((1 : ℤ), (3 : ℤ)), (-1, 1)] :=
  scan_windows_partition envC1 [] 0 5 pidC1 3 2 1 [(1, 3), (-1, 1)]
    (by norm_num [pidC1]) (by norm_num) scanC1_eval

/-- C10. `Observations.store` with its default arguments `method="search"`
and `territorial_unit_ids=None` raises a `TypeError` as soon as the scan
loop of the first taxo group is entered with a non-empty configured
territorial-units list: the membership test
`t_u[0]["short_name"] in territorial_unit_ids` is evaluated against `None`. -/
theorem store_defaults_raise_type_error (env : ScanEnv) (minD endD : ℤ)
    (fuel : ℕ) (p0 : PID) (delta0 : ℤ) (t : ℤ) (rest : List ℤ)
    (hu : env.t_units ≠ []) (hlt : minD < endD) :
    obsStoreSearch env none minD endD (fuel + 1) p0 delta0 (t :: rest)
      = some (Except.error PyErr.typeError) := by
  have hw := windowObs_none_error env 1 hu
  simp only [obsStoreSearch, scanLoopF_succ, if_pos hlt, hw]

/-- Witness for `store_defaults_raise_type_error` at a concrete
configuration. -/
theorem store_defaults_raise_type_error_witness :
    obsStoreSearch env10 none 0 1 1 pidC1 10 [1]
      = some (Except.error PyErr.typeError) :=
  store_defaults_raise_type_error env10 0 1 0 pidC1 10 1 []
    (by decide) (by decide)

end ClientAPIVN
